import Mathlib

/-!
Formal model of the frequency-domain image-restoration core of the
`ClassPractice-Master` repository (Homework 3): the degradation function,
the regularized inverse filter, the Wiener (MMSE) filter, the 2D DFT
pipeline with frequency centering, percentile-based output normalization,
and the PSNR metric.

Machine floats are modelled by real numbers, numpy complex arrays by
functions `Fin R → Fin C → ℂ`, and Python exceptions by `Except String`.
The file is organized as definitions first, then theorems.
-/

noncomputable section

namespace HW3

open Finset

/-! ## Definitions: elementary numeric helpers (numpy semantics) -/

/-- Rounding as performed by `np.rint`: round half to even. -/
def rint (x : ℝ) : ℤ :=
  if Int.fract x = 1 / 2 then (if Even ⌊x⌋ then ⌊x⌋ else ⌊x⌋ + 1) else round x

/-- The final output conversion `np.clip(np.rint(x), 0, 255).astype(np.uint8)`
applied to one sample. -/
def toUint8 (x : ℝ) : ℤ := min 255 (max 0 (rint x))

/-- Elementwise `np.clip(x, 0, 255)` on floats. -/
def clip255 (x : ℝ) : ℝ := min 255 (max 0 x)

/-! ## Definitions: degradation model

`_compute_degradation_function` of both operators builds the centered
coordinate grids `u_coords = np.arange(cols) - cols/2.0`,
`v_coords = np.arange(rows) - rows/2.0`, clamps `u² + v²` from below by a
small `epsilon` and returns `exp(-k * (u² + v²)^(5/6))`. -/

/-- Centered frequency coordinate of column `j` (`np.arange(cols) - cols/2.0`). -/
def coordU (cols j : ℕ) : ℝ := (j : ℝ) - (cols : ℝ) / 2

/-- Centered frequency coordinate of row `i` (`np.arange(rows) - rows/2.0`). -/
def coordV (rows i : ℕ) : ℝ := (i : ℝ) - (rows : ℝ) / 2

/-- Pointwise degradation function
`H(u,v) = exp(-k * max(u² + v², eps)^(5/6))`. -/
def degradationFun (k eps u v : ℝ) : ℝ :=
  Real.exp (-k * (max (u ^ 2 + v ^ 2) eps) ^ ((5 : ℝ) / 6))

/-- The degradation-function grid returned by
`_compute_degradation_function(rows, cols)`; entry `(i, j)` uses the
meshgrid coordinates `u = u_coords[j]`, `v = v_coords[i]`. -/
def Hgrid (k eps : ℝ) (R C : ℕ) (i : Fin R) (j : Fin C) : ℝ :=
  degradationFun k eps (coordU C j.1) (coordV R i.1)

/-! ## Definitions: operator construction (parameter validation) -/

/-- Configuration record stored by `InverseFilterOperator.__init__`. -/
structure InverseFilterOperator where
  k : ℝ
  cutoff_radius : ℝ
  epsilon : ℝ

/-- `InverseFilterOperator.__init__`: validates the parameters and stores
them unchanged; raising `ValueError` is modelled by `Except.error`. -/
def InverseFilterOperator.init (k cutoff_radius epsilon : ℝ) :
    Except String InverseFilterOperator :=
  if k < 0 then .error "System parameter k must be non-negative"
  else if cutoff_radius ≤ 0 then .error "Cutoff radius must be positive"
  else if epsilon ≤ 0 then .error "Epsilon must be positive"
  else .ok ⟨k, cutoff_radius, epsilon⟩

/-- Configuration record stored by `WienerFilterOperator.__init__`;
`signal_variance = None` is modelled by `Option.none`. -/
structure WienerFilterOperator where
  k : ℝ
  noise_variance : ℝ
  signal_variance : Option ℝ

/-- `WienerFilterOperator.__init__`: validates `k` and `noise_variance`
and stores all three parameters unchanged. -/
def WienerFilterOperator.init (k noise_variance : ℝ) (signal_variance : Option ℝ) :
    Except String WienerFilterOperator :=
  if k < 0 then .error "System parameter k must be non-negative"
  else if noise_variance < 0 then .error "Noise variance must be non-negative"
  else .ok ⟨k, noise_variance, signal_variance⟩

/-! ## Definitions: image statistics and NSR estimation -/

/-- Mean intensity of a 2D grid (`np.mean`). -/
def gridMean (R C : ℕ) (g : Fin R → Fin C → ℝ) : ℝ :=
  (∑ i, ∑ j, g i j) / (R * C)

/-- Population variance of a 2D grid (`np.var`). -/
def gridVar (R C : ℕ) (g : Fin R → Fin C → ℝ) : ℝ :=
  (∑ i, ∑ j, (g i j - gridMean R C g) ^ 2) / (R * C)

/-- `WienerFilterOperator._estimate_nsr`: the signal variance is the
supplied value if present, otherwise the image variance with a fallback
to `1.0` below the `1e-6` threshold; the Python scalar division
`noise_variance / signal_var` raises `ZeroDivisionError` when the
divisor is exactly zero. -/
def estimateNsr (R C : ℕ) (op : WienerFilterOperator) (image : Fin R → Fin C → ℝ) :
    Except String ℝ :=
  let signal_var : ℝ :=
    match op.signal_variance with
    | some s => s
    | none =>
        let v := gridVar R C image
        if v < 1 / 1000000 then 1 else v
  if signal_var = 0 then .error "ZeroDivisionError: float division by zero"
  else .ok (op.noise_variance / signal_var)

/-! ## Definitions: spectral transform adapter

`np.fft.fft2` / `np.fft.ifft2` with the standard "backward" normalization,
and `np.fft.fftshift` / `np.fft.ifftshift`, which roll each axis by
`n // 2` and `-(n // 2)` respectively (`np.roll(a, s)[i] = a[(i - s) % n]`). -/

/-- Forward 2D discrete Fourier transform (`np.fft.fft2`). -/
def dft2 (R C : ℕ) (f : Fin R → Fin C → ℂ) (u : Fin R) (v : Fin C) : ℂ :=
  ∑ m, ∑ n, f m n *
    Complex.exp (-(2 * (Real.pi : ℂ) * Complex.I) *
      ((u.1 : ℂ) * (m.1 : ℂ) / (R : ℂ) + (v.1 : ℂ) * (n.1 : ℂ) / (C : ℂ)))

/-- Inverse 2D discrete Fourier transform (`np.fft.ifft2`). -/
def idft2 (R C : ℕ) (g : Fin R → Fin C → ℂ) (m : Fin R) (n : Fin C) : ℂ :=
  (∑ u, ∑ v, g u v *
    Complex.exp ((2 * (Real.pi : ℂ) * Complex.I) *
      ((u.1 : ℂ) * (m.1 : ℂ) / (R : ℂ) + (v.1 : ℂ) * (n.1 : ℂ) / (C : ℂ)))) /
    ((R : ℂ) * (C : ℂ))

/-- Quadrant shift `np.fft.fftshift` on a 2D grid: each axis is rolled by
`n // 2`, so entry `i` of the result reads entry `i - n // 2 (mod n)`. -/
def fftshift2 {α : Type*} (R C : ℕ) [NeZero R] [NeZero C] (g : Fin R → Fin C → α)
    (i : Fin R) (j : Fin C) : α :=
  g (i - ((R / 2 : ℕ) : Fin R)) (j - ((C / 2 : ℕ) : Fin C))

/-- Inverse quadrant shift `np.fft.ifftshift`: each axis is rolled by
`-(n // 2)`. -/
def ifftshift2 {α : Type*} (R C : ℕ) [NeZero R] [NeZero C] (g : Fin R → Fin C → α)
    (i : Fin R) (j : Fin C) : α :=
  g (i + ((R / 2 : ℕ) : Fin R)) (j + ((C / 2 : ℕ) : Fin C))

/-- Forward step used by both operators:
`np.fft.fftshift(np.fft.fft2(image_float))`. -/
def forwardTransform (R C : ℕ) [NeZero R] [NeZero C] (image : Fin R → Fin C → ℝ) :
    Fin R → Fin C → ℂ :=
  fftshift2 R C (dft2 R C fun i j => (image i j : ℂ))

/-- Inverse step used by both operators:
`np.real(np.fft.ifft2(np.fft.ifftshift(g)))`. -/
def inverseTransform (R C : ℕ) [NeZero R] [NeZero C] (g : Fin R → Fin C → ℂ) :
    Fin R → Fin C → ℝ :=
  fun i j => (idft2 R C (ifftshift2 R C g) i j).re

/-! ## Definitions: inverse-filter pipeline (`InverseFilterOperator.apply`) -/

/-- Pointwise Gaussian low-pass filter of `_compute_lowpass_filter`:
`np.exp(-(distance ** 2) / (2 * cutoff_radius ** 2))` with
`distance = np.sqrt(u² + v²)`. -/
def lowpassFun (cutoff u v : ℝ) : ℝ :=
  Real.exp (-Real.sqrt (u ^ 2 + v ^ 2) ^ 2 / (2 * cutoff ^ 2))

/-- The low-pass grid over centered meshgrid coordinates. -/
def lowpassGrid (cutoff : ℝ) (R C : ℕ) (i : Fin R) (j : Fin C) : ℝ :=
  lowpassFun cutoff (coordU C j.1) (coordV R i.1)

/-- Regularized inverse response `H / (|H|² + alpha)` with the fixed
regularization constant `alpha = 0.01`. -/
def regularizedInverse (h : ℝ) : ℝ := h / (|h| ^ 2 + 1 / 100)

/-- The combined frequency filter of the inverse operator:
`regularized_inverse * lowpass + (1 - lowpass)`. -/
def combinedFilter (op : InverseFilterOperator) (R C : ℕ) (i : Fin R) (j : Fin C) : ℝ :=
  regularizedInverse (Hgrid op.k op.epsilon R C i j) * lowpassGrid op.cutoff_radius R C i j +
    (1 - lowpassGrid op.cutoff_radius R C i j)

/-- Real spatial result of the inverse-filter pipeline before
normalization (`restored_real` in `InverseFilterOperator.apply`). -/
def invRestoredReal (R C : ℕ) [NeZero R] [NeZero C] (op : InverseFilterOperator)
    (image : Fin R → Fin C → ℝ) : Fin R → Fin C → ℝ :=
  inverseTransform R C fun i j =>
    forwardTransform R C image i j * ((combinedFilter op R C i j : ℝ) : ℂ)

/-! ## Definitions: percentile normalization (shared output stage) -/

/-- Row-major flattening of a grid, as `np.percentile` flattens its input. -/
def flattenGrid (R C : ℕ) (g : Fin R → Fin C → ℝ) : List ℝ :=
  (List.finRange R).flatMap fun i => (List.finRange C).map fun j => g i j

/-- Linear interpolation into a list at fractional position `pos`
(the default interpolation of `np.percentile`). -/
def interpAt (s : List ℝ) (pos : ℝ) : ℝ :=
  s.getD ⌊pos⌋₊ 0 +
    (pos - (⌊pos⌋₊ : ℝ)) * (s.getD (min (⌊pos⌋₊ + 1) (s.length - 1)) 0 - s.getD ⌊pos⌋₊ 0)

/-- `np.percentile(vals, p)`: sort, then linearly interpolate at position
`p/100 · (n - 1)`. -/
def percentile (vals : List ℝ) (p : ℝ) : ℝ :=
  interpAt (vals.insertionSort (· ≤ ·)) (p * ((vals.length : ℝ) - 1) / 100)

/-- The shared output stage of both operators: 1st/99th percentile
rescaling to `[0, 255]` when the percentiles differ, otherwise the
constant fallback at the degraded image's mean intensity; in both cases
followed by `np.clip(np.rint(·), 0, 255).astype(np.uint8)`. -/
def normalizeToUint8 (R C : ℕ) (restored_real : Fin R → Fin C → ℝ) (degraded_mean : ℝ) :
    Fin R → Fin C → ℤ :=
  let vals := flattenGrid R C restored_real
  let p_low := percentile vals 1
  let p_high := percentile vals 99
  fun i j =>
    if p_low < p_high then
      toUint8 (clip255 ((restored_real i j - p_low) / (p_high - p_low) * 255))
    else
      toUint8 degraded_mean

/-- `InverseFilterOperator.apply`: FFT, centering, combined filter,
inverse FFT, real part, percentile normalization to `uint8`. -/
def InverseFilterOperator.apply (R C : ℕ) [NeZero R] [NeZero C] (op : InverseFilterOperator)
    (degraded_image : Fin R → Fin C → ℝ) : Fin R → Fin C → ℤ :=
  normalizeToUint8 R C (invRestoredReal R C op degraded_image) (gridMean R C degraded_image)

/-! ## Definitions: Wiener-filter pipeline (`WienerFilterOperator.apply`) -/

/-- Degradation grid of the Wiener operator: same formula with the fixed
clamp `epsilon = 1e-10`. -/
def wienerHgrid (k : ℝ) (R C : ℕ) (i : Fin R) (j : Fin C) : ℝ :=
  Hgrid k (1 / 10000000000) R C i j

/-- Wiener frequency response `H* / (|H|² + K)`; `H` is real so its
conjugate is itself. -/
def wienerFilterGrid (k K : ℝ) (R C : ℕ) (i : Fin R) (j : Fin C) : ℝ :=
  wienerHgrid k R C i j / (|wienerHgrid k R C i j| ^ 2 + K)

/-- Real spatial result of the Wiener pipeline before normalization. -/
def wienerRestoredReal (R C : ℕ) [NeZero R] [NeZero C] (k K : ℝ)
    (image : Fin R → Fin C → ℝ) : Fin R → Fin C → ℝ :=
  inverseTransform R C fun i j =>
    forwardTransform R C image i j * ((wienerFilterGrid k K R C i j : ℝ) : ℂ)

/-- Body of `WienerFilterOperator.apply` once the NSR value is available. -/
def wienerCore (R C : ℕ) [NeZero R] [NeZero C] (k K : ℝ)
    (image : Fin R → Fin C → ℝ) : Fin R → Fin C → ℤ :=
  normalizeToUint8 R C (wienerRestoredReal R C k K image) (gridMean R C image)

/-- `WienerFilterOperator.apply`: estimate the NSR (which raises for a
supplied signal variance of exactly zero), then filter and normalize. -/
def WienerFilterOperator.apply (R C : ℕ) [NeZero R] [NeZero C] (op : WienerFilterOperator)
    (degraded_image : Fin R → Fin C → ℝ) : Except String (Fin R → Fin C → ℤ) :=
  (estimateNsr R C op degraded_image).map fun K => wienerCore R C op.k K degraded_image

/-! ## Definitions: PSNR metric (`compute_psnr`) -/

/-- A 2D numpy array together with its shape. -/
structure NDImage where
  rows : ℕ
  cols : ℕ
  data : Fin rows → Fin cols → ℝ

/-- numpy broadcast compatibility of two 2D shapes: on each axis the
extents must agree or one of them must be 1. -/
def broadcastCompatible (a b : NDImage) : Prop :=
  (a.rows = b.rows ∨ a.rows = 1 ∨ b.rows = 1) ∧
    (a.cols = b.cols ∨ a.cols = 1 ∨ b.cols = 1)

instance (a b : NDImage) : Decidable (broadcastCompatible a b) := by
  unfold broadcastCompatible
  infer_instance

/-- Extent of one axis of the numpy broadcast result. -/
def brDim (n m : ℕ) : ℕ := if n = 1 then m else n

/-- Total sample access (indices reduced modulo the shape). -/
def atIdx (img : NDImage) (i j : ℕ) : ℝ :=
  if hi : i % img.rows < img.rows then
    if hj : j % img.cols < img.cols then img.data ⟨i % img.rows, hi⟩ ⟨j % img.cols, hj⟩
    else 0
  else 0

/-- Broadcast sample access: an axis of extent 1 is always read at 0. -/
def bVal (img : NDImage) (i j : ℕ) : ℝ :=
  atIdx img (if img.rows = 1 then 0 else i) (if img.cols = 1 then 0 else j)

/-- `compute_psnr`: the elementwise difference follows numpy broadcasting
(raising when the shapes are incompatible); the mean squared error below
`1e-10` yields `float('inf')`, otherwise `10·log10(255² / mse)`. -/
def computePsnr (a b : NDImage) : Except String EReal :=
  if broadcastCompatible a b then
    let R := brDim a.rows b.rows
    let C := brDim a.cols b.cols
    let mse := (∑ i : Fin R, ∑ j : Fin C, (bVal a i.1 j.1 - bVal b i.1 j.1) ^ 2) / (R * C)
    if mse < 1 / 10000000000 then .ok ⊤
    else .ok (((10 : ℝ) * Real.logb 10 ((255 : ℝ) ^ 2 / mse) : ℝ) : EReal)
  else .error "operands could not be broadcast together"

/-! ## Theorems: helper facts -/

theorem toUint8_mem (x : ℝ) : 0 ≤ toUint8 x ∧ toUint8 x ≤ 255 :=
  ⟨le_min (by norm_num) (le_max_left 0 (rint x)), min_le_left _ _⟩

theorem gridVar_nonneg (R C : ℕ) (g : Fin R → Fin C → ℝ) : 0 ≤ gridVar R C g := by
  unfold gridVar
  have hnum : 0 ≤ ∑ i, ∑ j, (g i j - gridMean R C g) ^ 2 :=
    Finset.sum_nonneg fun i _ => Finset.sum_nonneg fun j _ => sq_nonneg _
  positivity

theorem initWiener_ok (k noise_variance : ℝ) (signal_variance : Option ℝ)
    (hk : 0 ≤ k) (hn : 0 ≤ noise_variance) :
    WienerFilterOperator.init k noise_variance signal_variance =
      .ok ⟨k, noise_variance, signal_variance⟩ := by
  simp [WienerFilterOperator.init, hk.not_lt, hn.not_lt]

theorem normalizeToUint8_mem (R C : ℕ) (g : Fin R → Fin C → ℝ) (dm : ℝ)
    (i : Fin R) (j : Fin C) :
    0 ≤ normalizeToUint8 R C g dm i j ∧ normalizeToUint8 R C g dm i j ≤ 255 := by
  simp only [normalizeToUint8]
  split_ifs <;> exact toUint8_mem _

theorem estimateNsr_ok (R C : ℕ) (op : WienerFilterOperator) (image : Fin R → Fin C → ℝ)
    (hsv : ∀ s, op.signal_variance = some s → 0 < s) :
    ∃ K, estimateNsr R C op image = .ok K := by
  cases hs : op.signal_variance with
  | some s =>
    have hne : s ≠ 0 := (hsv s hs).ne'
    exact ⟨op.noise_variance / s, by simp [estimateNsr, hs, hne]⟩
  | none =>
    have hne : (if gridVar R C image < 1 / 1000000 then (1 : ℝ) else gridVar R C image) ≠ 0 := by
      split_ifs with h
      · norm_num
      · push_neg at h
        exact (lt_of_lt_of_le (by norm_num) h).ne'
    refine ⟨op.noise_variance /
      (if gridVar R C image < 1 / 1000000 then 1 else gridVar R C image), ?_⟩
    simp only [estimateNsr, hs]
    rw [if_neg hne]

theorem degradationFun_pos (k eps u v : ℝ) : 0 < degradationFun k eps u v :=
  Real.exp_pos _

theorem degradationFun_le_one (k eps u v : ℝ) (hk : 0 ≤ k) :
    degradationFun k eps u v ≤ 1 := by
  unfold degradationFun
  rw [Real.exp_le_one_iff]
  have h1 : (0 : ℝ) ≤ max (u ^ 2 + v ^ 2) eps :=
    le_trans (by positivity) (le_max_left _ _)
  have h2 : 0 ≤ (max (u ^ 2 + v ^ 2) eps) ^ ((5 : ℝ) / 6) := Real.rpow_nonneg h1 _
  rw [neg_mul]
  exact neg_nonpos.2 (mul_nonneg hk h2)

theorem regularizedInverse_pos_le (h : ℝ) (h0 : 0 < h) :
    0 < regularizedInverse h ∧ regularizedInverse h ≤ 5 := by
  unfold regularizedInverse
  rw [abs_of_pos h0]
  constructor
  · positivity
  · rw [div_le_iff₀ (by positivity)]
    nlinarith [sq_nonneg (h - 1 / 10)]

theorem lowpassFun_pos_le (c u v : ℝ) (hc : 0 < c) :
    0 < lowpassFun c u v ∧ lowpassFun c u v ≤ 1 := by
  unfold lowpassFun
  refine ⟨Real.exp_pos _, ?_⟩
  rw [Real.exp_le_one_iff]
  have h1 : 0 ≤ Real.sqrt (u ^ 2 + v ^ 2) ^ 2 := sq_nonneg _
  have h2 : (0 : ℝ) ≤ 2 * c ^ 2 := by positivity
  exact div_nonpos_of_nonpos_of_nonneg (neg_nonpos.2 h1) h2

theorem combined_pos_le (r l : ℝ) (hr0 : 0 < r) (hr5 : r ≤ 5) (hl0 : 0 < l) (hl1 : l ≤ 1) :
    0 < r * l + (1 - l) ∧ r * l + (1 - l) ≤ 5 := by
  constructor
  · have := mul_pos hr0 hl0
    nlinarith
  · nlinarith [mul_le_mul_of_nonneg_right hr5 hl0.le]

/-! ## Theorems: roots-of-unity sums and DFT inversion -/

theorem exp_geom_sum (N : ℕ) (hN : 0 < N) (d : ℤ) :
    ∑ k ∈ Finset.range N, Complex.exp (2 * (Real.pi : ℂ) * Complex.I * (d : ℂ) * (k : ℂ) / N) =
      if (N : ℤ) ∣ d then (N : ℂ) else 0 := by
  have hNne : (N : ℂ) ≠ 0 := Nat.cast_ne_zero.2 hN.ne'
  have h2πI : (2 * (Real.pi : ℂ) * Complex.I) ≠ 0 :=
    mul_ne_zero (mul_ne_zero two_ne_zero (Complex.ofReal_ne_zero.2 Real.pi_ne_zero))
      Complex.I_ne_zero
  have hterm : ∀ k : ℕ, Complex.exp (2 * (Real.pi : ℂ) * Complex.I * (d : ℂ) * (k : ℂ) / N) =
      Complex.exp (2 * (Real.pi : ℂ) * Complex.I * (d : ℂ) / N) ^ k := by
    intro k
    rw [← Complex.exp_nat_mul]
    congr 1
    ring
  simp_rw [hterm]
  by_cases hdvd : (N : ℤ) ∣ d
  · obtain ⟨c, hc⟩ := hdvd
    have hz1 : Complex.exp (2 * (Real.pi : ℂ) * Complex.I * (d : ℂ) / N) = 1 := by
      have harg : 2 * (Real.pi : ℂ) * Complex.I * (d : ℂ) / N =
          (c : ℂ) * (2 * (Real.pi : ℂ) * Complex.I) := by
        rw [hc]
        push_cast
        field_simp
        ring
      rw [harg]
      exact Complex.exp_int_mul_two_pi_mul_I c
    have hdvd2 : (N : ℤ) ∣ d := ⟨c, hc⟩
    simp [hz1, hdvd2]
  · have hz1 : Complex.exp (2 * (Real.pi : ℂ) * Complex.I * (d : ℂ) / N) ≠ 1 := by
      intro h
      rw [Complex.exp_eq_one_iff] at h
      obtain ⟨m, hm⟩ := h
      apply hdvd
      refine ⟨m, ?_⟩
      have hd : (d : ℂ) = (N : ℂ) * (m : ℂ) := by
        rw [div_eq_iff hNne] at hm
        apply mul_left_cancel₀ h2πI
        linear_combination hm
      exact_mod_cast hd
    have hzN : Complex.exp (2 * (Real.pi : ℂ) * Complex.I * (d : ℂ) / N) ^ N = 1 := by
      rw [← Complex.exp_nat_mul]
      have harg : (N : ℂ) * (2 * (Real.pi : ℂ) * Complex.I * (d : ℂ) / N) =
          (d : ℂ) * (2 * (Real.pi : ℂ) * Complex.I) := by
        field_simp
        ring
      rw [harg]
      exact Complex.exp_int_mul_two_pi_mul_I d
    rw [geom_sum_eq hz1, hzN, if_neg hdvd]
    simp

theorem fin_sub_dvd_iff (N : ℕ) (a m : Fin N) :
    (N : ℤ) ∣ ((a.1 : ℤ) - (m.1 : ℤ)) ↔ a = m := by
  constructor
  · rintro ⟨c, hc⟩
    have ha : (a.1 : ℤ) < N := Int.ofNat_lt.2 a.2
    have hm : (m.1 : ℤ) < N := Int.ofNat_lt.2 m.2
    have ha0 : 0 ≤ (a.1 : ℤ) := Int.ofNat_nonneg _
    have hm0 : 0 ≤ (m.1 : ℤ) := Int.ofNat_nonneg _
    have hNpos : 0 < (N : ℤ) := lt_of_le_of_lt hm0 hm
    have hc0 : c = 0 := by
      by_contra hcne
      have h1 : 1 ≤ |c| := Int.one_le_abs hcne
      have h2 : (N : ℤ) ≤ |(N : ℤ) * c| := by
        rw [abs_mul, abs_of_nonneg hNpos.le]
        nlinarith
      rw [← hc] at h2
      have h3 : |(a.1 : ℤ) - (m.1 : ℤ)| < N := by
        rw [abs_lt]
        omega
      exact absurd (lt_of_le_of_lt h2 h3) (lt_irrefl _)
    rw [hc0, mul_zero] at hc
    exact Fin.ext (by omega)
  · rintro rfl
    simp

theorem sum_exp_fin (N : ℕ) (hN : 0 < N) (a m : Fin N) :
    ∑ u : Fin N, Complex.exp (2 * (Real.pi : ℂ) * Complex.I *
        (((a.1 : ℤ) - (m.1 : ℤ) : ℤ) : ℂ) * ((u.1 : ℕ) : ℂ) / N) =
      if a = m then (N : ℂ) else 0 := by
  rw [Fin.sum_univ_eq_sum_range (fun k : ℕ => Complex.exp (2 * (Real.pi : ℂ) * Complex.I *
    (((a.1 : ℤ) - (m.1 : ℤ) : ℤ) : ℂ) * ((k : ℕ) : ℂ) / N)) N]
  rw [exp_geom_sum N hN ((a.1 : ℤ) - (m.1 : ℤ))]
  simp only [fin_sub_dvd_iff]

theorem idft2_dft2 (R C : ℕ) [NeZero R] [NeZero C] (f : Fin R → Fin C → ℂ)
    (a : Fin R) (b : Fin C) :
    idft2 R C (dft2 R C f) a b = f a b := by
  have hR : 0 < R := Nat.pos_of_ne_zero (NeZero.ne R)
  have hC : 0 < C := Nat.pos_of_ne_zero (NeZero.ne C)
  have hRne : (R : ℂ) ≠ 0 := Nat.cast_ne_zero.2 hR.ne'
  have hCne : (C : ℂ) ≠ 0 := Nat.cast_ne_zero.2 hC.ne'
  have key : ∀ (u : Fin R) (v : Fin C),
      dft2 R C f u v * Complex.exp ((2 * (Real.pi : ℂ) * Complex.I) *
        ((u.1 : ℂ) * (a.1 : ℂ) / R + (v.1 : ℂ) * (b.1 : ℂ) / C)) =
      ∑ m, ∑ n, f m n *
        (Complex.exp (2 * (Real.pi : ℂ) * Complex.I *
            (((a.1 : ℤ) - (m.1 : ℤ) : ℤ) : ℂ) * ((u.1 : ℕ) : ℂ) / R) *
         Complex.exp (2 * (Real.pi : ℂ) * Complex.I *
            (((b.1 : ℤ) - (n.1 : ℤ) : ℤ) : ℂ) * ((v.1 : ℕ) : ℂ) / C)) := by
    intro u v
    rw [dft2, Finset.sum_mul]
    refine Finset.sum_congr rfl fun m _ => ?_
    rw [Finset.sum_mul]
    refine Finset.sum_congr rfl fun n _ => ?_
    rw [mul_assoc]
    congr 1
    rw [← Complex.exp_add, ← Complex.exp_add]
    congr 1
    push_cast
    ring
  rw [idft2]
  simp_rw [key]
  have swap : (∑ u : Fin R, ∑ v : Fin C, ∑ m : Fin R, ∑ n : Fin C, f m n *
      (Complex.exp (2 * (Real.pi : ℂ) * Complex.I *
          (((a.1 : ℤ) - (m.1 : ℤ) : ℤ) : ℂ) * ((u.1 : ℕ) : ℂ) / R) *
       Complex.exp (2 * (Real.pi : ℂ) * Complex.I *
          (((b.1 : ℤ) - (n.1 : ℤ) : ℤ) : ℂ) * ((v.1 : ℕ) : ℂ) / C))) =
      ∑ m : Fin R, ∑ n : Fin C, f m n *
        ((∑ u : Fin R, Complex.exp (2 * (Real.pi : ℂ) * Complex.I *
            (((a.1 : ℤ) - (m.1 : ℤ) : ℤ) : ℂ) * ((u.1 : ℕ) : ℂ) / R)) *
         (∑ v : Fin C, Complex.exp (2 * (Real.pi : ℂ) * Complex.I *
            (((b.1 : ℤ) - (n.1 : ℤ) : ℤ) : ℂ) * ((v.1 : ℕ) : ℂ) / C))) := by
    calc (∑ u : Fin R, ∑ v : Fin C, ∑ m : Fin R, ∑ n : Fin C, _)
        = ∑ u : Fin R, ∑ m : Fin R, ∑ v : Fin C, ∑ n : Fin C, f m n *
            (Complex.exp (2 * (Real.pi : ℂ) * Complex.I *
                (((a.1 : ℤ) - (m.1 : ℤ) : ℤ) : ℂ) * ((u.1 : ℕ) : ℂ) / R) *
             Complex.exp (2 * (Real.pi : ℂ) * Complex.I *
                (((b.1 : ℤ) - (n.1 : ℤ) : ℤ) : ℂ) * ((v.1 : ℕ) : ℂ) / C)) := by
          exact Finset.sum_congr rfl fun u _ => Finset.sum_comm
      _ = ∑ m : Fin R, ∑ u : Fin R, ∑ v : Fin C, ∑ n : Fin C, f m n *
            (Complex.exp (2 * (Real.pi : ℂ) * Complex.I *
                (((a.1 : ℤ) - (m.1 : ℤ) : ℤ) : ℂ) * ((u.1 : ℕ) : ℂ) / R) *
             Complex.exp (2 * (Real.pi : ℂ) * Complex.I *
                (((b.1 : ℤ) - (n.1 : ℤ) : ℤ) : ℂ) * ((v.1 : ℕ) : ℂ) / C)) := Finset.sum_comm
      _ = ∑ m : Fin R, ∑ u : Fin R, ∑ n : Fin C, ∑ v : Fin C, f m n *
            (Complex.exp (2 * (Real.pi : ℂ) * Complex.I *
                (((a.1 : ℤ) - (m.1 : ℤ) : ℤ) : ℂ) * ((u.1 : ℕ) : ℂ) / R) *
             Complex.exp (2 * (Real.pi : ℂ) * Complex.I *
                (((b.1 : ℤ) - (n.1 : ℤ) : ℤ) : ℂ) * ((v.1 : ℕ) : ℂ) / C)) := by
          exact Finset.sum_congr rfl fun m _ => Finset.sum_congr rfl fun u _ => Finset.sum_comm
      _ = ∑ m : Fin R, ∑ n : Fin C, ∑ u : Fin R, ∑ v : Fin C, f m n *
            (Complex.exp (2 * (Real.pi : ℂ) * Complex.I *
                (((a.1 : ℤ) - (m.1 : ℤ) : ℤ) : ℂ) * ((u.1 : ℕ) : ℂ) / R) *
             Complex.exp (2 * (Real.pi : ℂ) * Complex.I *
                (((b.1 : ℤ) - (n.1 : ℤ) : ℤ) : ℂ) * ((v.1 : ℕ) : ℂ) / C)) := by
          exact Finset.sum_congr rfl fun m _ => Finset.sum_comm
      _ = ∑ m : Fin R, ∑ n : Fin C, f m n *
            ((∑ u : Fin R, Complex.exp (2 * (Real.pi : ℂ) * Complex.I *
                (((a.1 : ℤ) - (m.1 : ℤ) : ℤ) : ℂ) * ((u.1 : ℕ) : ℂ) / R)) *
             (∑ v : Fin C, Complex.exp (2 * (Real.pi : ℂ) * Complex.I *
                (((b.1 : ℤ) - (n.1 : ℤ) : ℤ) : ℂ) * ((v.1 : ℕ) : ℂ) / C))) := by
          refine Finset.sum_congr rfl fun m _ => Finset.sum_congr rfl fun n _ => ?_
          rw [Finset.sum_mul_sum, Finset.mul_sum]
          refine Finset.sum_congr rfl fun u _ => ?_
          rw [Finset.mul_sum]
  rw [swap]
  simp_rw [sum_exp_fin R hR a, sum_exp_fin C hC b]
  have collapse : ∀ (m : Fin R) (n : Fin C),
      f m n * ((if a = m then (R : ℂ) else 0) * (if b = n then (C : ℂ) else 0)) =
      (if a = m then (if b = n then f m n * ((R : ℂ) * (C : ℂ)) else 0) else 0) := by
    intro m n
    split_ifs <;> ring
  simp_rw [collapse]
  rw [Finset.sum_eq_single a]
  · rw [Finset.sum_eq_single b]
    · rw [if_pos rfl, if_pos rfl, mul_div_assoc,
        div_self (mul_ne_zero hRne hCne), mul_one]
    · intro n _ hn
      rw [if_pos rfl, if_neg (Ne.symm hn)]
    · intro h
      exact absurd (Finset.mem_univ b) h
  · intro m _ hm
    rw [Finset.sum_eq_zero]
    intro n _
    rw [if_neg (Ne.symm hm)]
  · intro h
    exact absurd (Finset.mem_univ a) h

theorem ifftshift2_fftshift2 {α : Type*} (R C : ℕ) [NeZero R] [NeZero C]
    (g : Fin R → Fin C → α) : ifftshift2 R C (fftshift2 R C g) = g := by
  funext i j
  unfold ifftshift2 fftshift2
  congr 1 <;> simp

/-! ## Theorems: percentile interpolation is monotone -/

theorem sorted_getD_mono (s : List ℝ) (hs : s.Sorted (· ≤ ·)) {i j : ℕ}
    (hij : i ≤ j) (hj : j < s.length) : s.getD i 0 ≤ s.getD j 0 := by
  have hi : i < s.length := lt_of_le_of_lt hij hj
  rw [List.getD_eq_get s 0 hi, List.getD_eq_get s 0 hj]
  exact hs.rel_get_of_le (Fin.mk_le_mk.2 hij)

theorem interpAt_mono (s : List ℝ) (hs : s.Sorted (· ≤ ·)) (hlen : s ≠ [])
    {x y : ℝ} (hx : 0 ≤ x) (hxy : x ≤ y) (hy : y ≤ (s.length : ℝ) - 1) :
    interpAt s x ≤ interpAt s y := by
  have hn : 0 < s.length := List.length_pos.2 hlen
  have hy0 : 0 ≤ y := le_trans hx hxy
  have hfx : (⌊x⌋₊ : ℝ) ≤ x := Nat.floor_le hx
  have hfy : (⌊y⌋₊ : ℝ) ≤ y := Nat.floor_le hy0
  have hxlt : x < ⌊x⌋₊ + 1 := Nat.lt_floor_add_one x
  have hylt : y < ⌊y⌋₊ + 1 := Nat.lt_floor_add_one y
  have hcast : ((s.length - 1 : ℕ) : ℝ) = (s.length : ℝ) - 1 := by
    rw [Nat.cast_sub hn]
    norm_num
  have hjn : ⌊y⌋₊ ≤ s.length - 1 := by
    have h1 : (⌊y⌋₊ : ℝ) ≤ (s.length : ℝ) - 1 := le_trans hfy hy
    rw [← hcast] at h1
    exact_mod_cast h1
  have hin : ⌊x⌋₊ ≤ s.length - 1 := le_trans (Nat.floor_mono hxy) hjn
  have hsub : s.length - 1 < s.length := Nat.sub_lt hn one_pos
  have hjlt : ⌊y⌋₊ < s.length := lt_of_le_of_lt hjn hsub
  by_cases hij : ⌊x⌋₊ = ⌊y⌋₊
  · unfold interpAt
    rw [hij]
    have hhl : s.getD ⌊y⌋₊ 0 ≤ s.getD (min (⌊y⌋₊ + 1) (s.length - 1)) 0 :=
      sorted_getD_mono s hs (le_min (Nat.le_succ _) hjn)
        (lt_of_le_of_lt (min_le_right _ _) hsub)
    have hstep := mul_le_mul_of_nonneg_right
      (sub_le_sub_right hxy ((⌊y⌋₊ : ℕ) : ℝ)) (sub_nonneg.2 hhl)
    linarith
  · have hlt : ⌊x⌋₊ < ⌊y⌋₊ := lt_of_le_of_ne (Nat.floor_mono hxy) hij
    have hxhi : interpAt s x ≤ s.getD (min (⌊x⌋₊ + 1) (s.length - 1)) 0 := by
      unfold interpAt
      have hhl : s.getD ⌊x⌋₊ 0 ≤ s.getD (min (⌊x⌋₊ + 1) (s.length - 1)) 0 :=
        sorted_getD_mono s hs (le_min (Nat.le_succ _) hin)
          (lt_of_le_of_lt (min_le_right _ _) hsub)
      nlinarith [mul_nonneg (by linarith : (0 : ℝ) ≤ 1 - (x - (⌊x⌋₊ : ℝ)))
        (sub_nonneg.2 hhl)]
    have hylo : s.getD ⌊y⌋₊ 0 ≤ interpAt s y := by
      unfold interpAt
      have hhl : s.getD ⌊y⌋₊ 0 ≤ s.getD (min (⌊y⌋₊ + 1) (s.length - 1)) 0 :=
        sorted_getD_mono s hs (le_min (Nat.le_succ _) hjn)
          (lt_of_le_of_lt (min_le_right _ _) hsub)
      nlinarith [mul_nonneg (by linarith : (0 : ℝ) ≤ y - (⌊y⌋₊ : ℝ))
        (sub_nonneg.2 hhl)]
    have hmid : s.getD (min (⌊x⌋₊ + 1) (s.length - 1)) 0 ≤ s.getD ⌊y⌋₊ 0 :=
      sorted_getD_mono s hs (le_trans (min_le_left _ _) hlt) hjlt
    linarith

theorem percentile_mono (vals : List ℝ) (hne : vals ≠ []) {p q : ℝ}
    (h0 : 0 ≤ p) (hpq : p ≤ q) (hq : q ≤ 100) :
    percentile vals p ≤ percentile vals q := by
  unfold percentile
  have hsort : (vals.insertionSort (· ≤ ·)).Sorted (· ≤ ·) :=
    List.sorted_insertionSort (· ≤ ·) vals
  have hlen : (vals.insertionSort (· ≤ ·)).length = vals.length :=
    List.length_insertionSort (· ≤ ·) vals
  have hsne : vals.insertionSort (· ≤ ·) ≠ [] := by
    intro h
    apply hne
    rw [h] at hlen
    exact List.length_eq_zero.1 hlen.symm
  have hn : 0 < vals.length := List.length_pos.2 hne
  have h1 : (0 : ℝ) ≤ (vals.length : ℝ) - 1 := by
    have h2 : (1 : ℝ) ≤ (vals.length : ℝ) := by exact_mod_cast hn
    linarith
  apply interpAt_mono _ hsort hsne
  · exact div_nonneg (mul_nonneg h0 h1) (by norm_num)
  · gcongr
  · rw [hlen]
    have h3 : (0 : ℝ) ≤ 100 - q := by linarith
    nlinarith [mul_nonneg h3 h1]

theorem flattenGrid_length (R C : ℕ) (g : Fin R → Fin C → ℝ) :
    (flattenGrid R C g).length = R * C := by
  unfold flattenGrid
  rw [List.length_flatMap]
  have h1 : (List.length ∘ fun i : Fin R => List.map (fun j => g i j) (List.finRange C)) =
      fun _ : Fin R => C := by
    funext i
    simp
  rw [h1, List.map_const', List.sum_replicate, List.length_finRange, smul_eq_mul, mul_comm]

theorem flattenGrid_ne_nil (R C : ℕ) (hR : 0 < R) (hC : 0 < C) (g : Fin R → Fin C → ℝ) :
    flattenGrid R C g ≠ [] := by
  intro h
  have hl := flattenGrid_length R C g
  rw [h] at hl
  simp at hl
  omega

theorem percentile_of_length_one (vals : List ℝ) (h : vals.length = 1) (p q : ℝ) :
    percentile vals p = percentile vals q := by
  unfold percentile
  rw [h]
  norm_num

theorem normalizeToUint8_flat (R C : ℕ) (g : Fin R → Fin C → ℝ) (dm : ℝ)
    (h : percentile (flattenGrid R C g) 99 = percentile (flattenGrid R C g) 1) :
    normalizeToUint8 R C g dm = fun _ _ => toUint8 dm := by
  funext i j
  simp only [normalizeToUint8]
  rw [if_neg (by rw [h]; exact lt_irrefl _)]

theorem normalizeToUint8_rescale (R C : ℕ) (hR : 0 < R) (hC : 0 < C)
    (g : Fin R → Fin C → ℝ) (dm : ℝ)
    (h : percentile (flattenGrid R C g) 99 ≠ percentile (flattenGrid R C g) 1) :
    ∀ i j, normalizeToUint8 R C g dm i j =
      toUint8 (clip255 ((g i j - percentile (flattenGrid R C g) 1) /
        (percentile (flattenGrid R C g) 99 - percentile (flattenGrid R C g) 1) * 255)) := by
  have hmono : percentile (flattenGrid R C g) 1 ≤ percentile (flattenGrid R C g) 99 :=
    percentile_mono _ (flattenGrid_ne_nil R C hR hC g) (by norm_num) (by norm_num)
      (by norm_num)
  have hlt : percentile (flattenGrid R C g) 1 < percentile (flattenGrid R C g) 99 :=
    lt_of_le_of_ne hmono (Ne.symm h)
  intro i j
  simp only [normalizeToUint8]
  rw [if_pos hlt]

/-! ## Claim C7: round-trip law of the spectral transform -/

/-- C7: forward transform (2D DFT then centering shift) followed by the
inverse transform (undo the shift, inverse 2D DFT, real part) with no
filter applied reproduces the input grid exactly. -/
theorem transform_roundtrip (R C : ℕ) [NeZero R] [NeZero C] (image : Fin R → Fin C → ℝ) :
    inverseTransform R C (forwardTransform R C image) = image := by
  funext i j
  unfold inverseTransform forwardTransform
  rw [ifftshift2_fftshift2, idft2_dft2]
  exact Complex.ofReal_re _

theorem transform_roundtrip_witness :
    inverseTransform 2 2 (forwardTransform 2 2 fun _ _ => 37) = fun _ _ => 37 :=
  transform_roundtrip 2 2 fun _ _ => 37

/-! ## Claim C2: constructor validation -/

/-- C2: constructing an operator with an invalid parameter fails at
construction: the inverse filter rejects `k < 0`, `cutoff_radius ≤ 0`
and `epsilon ≤ 0`, the Wiener filter rejects `k < 0` and
`noise_variance < 0`; valid parameters are stored unchanged (never
clamped); in particular `InverseFilterOperator(k = -1, 50, 1e-6)`
raises a configuration error. -/
theorem constructor_validation :
    (∀ k c e : ℝ, k < 0 →
      InverseFilterOperator.init k c e = .error "System parameter k must be non-negative") ∧
    (∀ k c e : ℝ, 0 ≤ k → c ≤ 0 →
      InverseFilterOperator.init k c e = .error "Cutoff radius must be positive") ∧
    (∀ k c e : ℝ, 0 ≤ k → 0 < c → e ≤ 0 →
      InverseFilterOperator.init k c e = .error "Epsilon must be positive") ∧
    (∀ (k nv : ℝ) (sv : Option ℝ), k < 0 →
      WienerFilterOperator.init k nv sv = .error "System parameter k must be non-negative") ∧
    (∀ (k nv : ℝ) (sv : Option ℝ), 0 ≤ k → nv < 0 →
      WienerFilterOperator.init k nv sv = .error "Noise variance must be non-negative") ∧
    (∀ k c e : ℝ, 0 ≤ k → 0 < c → 0 < e →
      InverseFilterOperator.init k c e = .ok ⟨k, c, e⟩) ∧
    (∀ (k nv : ℝ) (sv : Option ℝ), 0 ≤ k → 0 ≤ nv →
      WienerFilterOperator.init k nv sv = .ok ⟨k, nv, sv⟩) ∧
    InverseFilterOperator.init (-1) 50 (1 / 1000000) =
      .error "System parameter k must be non-negative" := by
  refine ⟨?_, ?_, ?_, ?_, ?_, ?_, ?_, ?_⟩
  · intro k c e hk; simp [InverseFilterOperator.init, hk]
  · intro k c e hk hc; simp [InverseFilterOperator.init, hk.not_lt, hc]
  · intro k c e hk hc he; simp [InverseFilterOperator.init, hk.not_lt, hc.not_le, he]
  · intro k nv sv hk; simp [WienerFilterOperator.init, hk]
  · intro k nv sv hk hn; simp [WienerFilterOperator.init, hk.not_lt, hn]
  · intro k c e hk hc he; simp [InverseFilterOperator.init, hk.not_lt, hc.not_le, he.not_le]
  · intro k nv sv hk hn; exact initWiener_ok k nv sv hk hn
  · norm_num [InverseFilterOperator.init]

theorem constructor_validation_witness :
    InverseFilterOperator.init (-1) 50 (1 / 1000000) =
      .error "System parameter k must be non-negative" :=
  constructor_validation.1 (-1) 50 (1 / 1000000) (by norm_num)

/-! ## Claim C8: symmetry of the degradation function -/

/-- C8: for every `k ≥ 0` the degradation function is symmetric in its
centered frequency coordinates, `H(u,v) = H(-u,-v) = H(u,-v) = H(-u,v)`,
because it depends on `(u, v)` only through `u² + v²`. -/
theorem degradation_symmetric (k eps u v : ℝ) (hk : 0 ≤ k) :
    degradationFun k eps u v = degradationFun k eps (-u) (-v) ∧
    degradationFun k eps u v = degradationFun k eps u (-v) ∧
    degradationFun k eps u v = degradationFun k eps (-u) v ∧
    ∀ w z : ℝ, u ^ 2 + v ^ 2 = w ^ 2 + z ^ 2 →
      degradationFun k eps u v = degradationFun k eps w z := by
  refine ⟨by simp [degradationFun], by simp [degradationFun], by simp [degradationFun], ?_⟩
  intro w z h
  simp [degradationFun, h]

theorem degradation_symmetric_witness :
    degradationFun 1 (1 / 1000000) 3 4 = degradationFun 1 (1 / 1000000) (-3) (-4) :=
  (degradation_symmetric 1 (1 / 1000000) 3 4 (by norm_num)).1

/-! ## Claim C4: the degradation function at zero frequency -/

/-- C4 counterexample: with the valid parameters `k = 1`, `eps = 1`
(`k ≥ 0`, `epsilon > 0`) on a 2×2 grid, the grid point `(1,1)` carries
the centered coordinates `(0,0)`, yet `H(0,0) ≠ 1`: the code clamps
`u² + v²` up to `epsilon` before exponentiating, so
`H(0,0) = exp(-k·eps^(5/6)) < 1` whenever `k > 0`. -/
theorem degradation_at_zero_counterexample :
    (0 : ℝ) ≤ 1 ∧ (0 : ℝ) < 1 ∧
    coordU 2 1 = 0 ∧ coordV 2 1 = 0 ∧
    Hgrid 1 1 2 2 ⟨1, by norm_num⟩ ⟨1, by norm_num⟩ ≠ 1 := by
  refine ⟨by norm_num, by norm_num, by norm_num [coordU], by norm_num [coordV], ?_⟩
  have h0 : Hgrid 1 1 2 2 ⟨1, by norm_num⟩ ⟨1, by norm_num⟩ = Real.exp (-1) := by
    have hu : coordU 2 1 = 0 := by norm_num [coordU]
    have hv : coordV 2 1 = 0 := by norm_num [coordV]
    rw [Hgrid]
    simp only [hu, hv, degradationFun]
    norm_num [Real.one_rpow]
  rw [h0]
  exact ne_of_lt (Real.exp_lt_one_iff.2 (by norm_num))

/-- C4 amended: on even-sized grids the center entry carries coordinates
`(0,0)` and evaluates to `exp(-k·eps^(5/6))`, which equals `1` exactly
when `k = 0` (and is strictly below `1` for `k > 0`). -/
theorem degradation_at_zero_eq (k eps : ℝ) (R C : ℕ)
    (hk : 0 ≤ k) (he : 0 < eps) (hRe : Even R) (hCe : Even C)
    (hR : R / 2 < R) (hC : C / 2 < C) :
    Hgrid k eps R C ⟨R / 2, hR⟩ ⟨C / 2, hC⟩ = Real.exp (-k * eps ^ ((5 : ℝ) / 6)) ∧
    (Hgrid k eps R C ⟨R / 2, hR⟩ ⟨C / 2, hC⟩ = 1 ↔ k = 0) := by
  obtain ⟨r, rfl⟩ := hRe
  obtain ⟨c, rfl⟩ := hCe
  have hu : coordU (c + c) ((c + c) / 2) = 0 := by
    unfold coordU
    have h2 : (c + c) / 2 = c := by omega
    rw [h2]
    push_cast
    ring
  have hv : coordV (r + r) ((r + r) / 2) = 0 := by
    unfold coordV
    have h2 : (r + r) / 2 = r := by omega
    rw [h2]
    push_cast
    ring
  have hmax : max ((0 : ℝ) ^ 2 + 0 ^ 2) eps = eps := by
    rw [max_eq_right]
    norm_num [he.le]
  have hval : Hgrid k eps (r + r) (c + c) ⟨(r + r) / 2, hR⟩ ⟨(c + c) / 2, hC⟩ =
      Real.exp (-k * eps ^ ((5 : ℝ) / 6)) := by
    rw [Hgrid]
    simp only [hu, hv, degradationFun, hmax]
  refine ⟨hval, ?_⟩
  rw [hval, Real.exp_eq_one_iff, neg_mul, neg_eq_zero, mul_eq_zero]
  have hne : eps ^ ((5 : ℝ) / 6) ≠ 0 := (Real.rpow_pos_of_pos he _).ne'
  tauto

theorem degradation_at_zero_eq_witness :
    Hgrid 0 1 2 2 ⟨1, by norm_num⟩ ⟨1, by norm_num⟩ = Real.exp (-0 * 1 ^ ((5 : ℝ) / 6)) :=
  (degradation_at_zero_eq 0 1 2 2 (by norm_num) (by norm_num)
    ⟨1, rfl⟩ ⟨1, rfl⟩ (by norm_num) (by norm_num)).1

/-! ## Claim C5: NSR estimation -/

/-- C5: the noise-to-signal ratio follows the documented rule: a supplied
(nonzero) signal variance is used directly, otherwise the image variance
is used, replaced by `1.0` when it falls below the `1e-6` threshold. -/
theorem nsr_estimation (R C : ℕ) (op : WienerFilterOperator) (image : Fin R → Fin C → ℝ) :
    (∀ s : ℝ, op.signal_variance = some s → s ≠ 0 →
      estimateNsr R C op image = .ok (op.noise_variance / s)) ∧
    (op.signal_variance = none →
      estimateNsr R C op image =
        .ok (op.noise_variance /
          (if gridVar R C image < 1 / 1000000 then 1 else gridVar R C image))) := by
  constructor
  · intro s hs hs0
    simp [estimateNsr, hs, hs0]
  · intro hs
    have hvar : 0 ≤ gridVar R C image := gridVar_nonneg R C image
    have hne : (if gridVar R C image < 1 / 1000000 then (1 : ℝ) else gridVar R C image) ≠ 0 := by
      split_ifs with h
      · norm_num
      · push_neg at h
        exact (lt_of_lt_of_le (by norm_num) h).ne'
    simp only [estimateNsr, hs]
    rw [if_neg hne]

theorem nsr_estimation_witness :
    estimateNsr 1 1 ⟨0, 100, some 2⟩ (fun _ _ => 0) = .ok ((100 : ℝ) / 2) :=
  (nsr_estimation 1 1 ⟨0, 100, some 2⟩ (fun _ _ => 0)).1 2 rfl (by norm_num)

/-! ## Claim C1: shape preservation and 8-bit output range -/

/-- C1: for every non-empty image and valid parameters, both operators
return an image of the same shape (`Fin R → Fin C`, enforced by the
result type) with every sample in `[0, 255]`; the Wiener operator
succeeds (its only failure mode is an invalid supplied signal variance,
excluded by the valid bounds). -/
theorem apply_shape_range (R C : ℕ) [NeZero R] [NeZero C]
    (op : InverseFilterOperator) (wop : WienerFilterOperator)
    (image : Fin R → Fin C → ℝ)
    (hk : 0 ≤ op.k) (hc : 0 < op.cutoff_radius) (he : 0 < op.epsilon)
    (hwk : 0 ≤ wop.k) (hnv : 0 ≤ wop.noise_variance)
    (hsv : ∀ s, wop.signal_variance = some s → 0 < s) :
    (∀ (i : Fin R) (j : Fin C),
      0 ≤ op.apply R C image i j ∧ op.apply R C image i j ≤ 255) ∧
    ∃ out, wop.apply R C image = .ok out ∧
      ∀ (i : Fin R) (j : Fin C), 0 ≤ out i j ∧ out i j ≤ 255 := by
  constructor
  · intro i j
    exact normalizeToUint8_mem R C (invRestoredReal R C op image)
      (gridMean R C image) i j
  · obtain ⟨K, hK⟩ := estimateNsr_ok R C wop image hsv
    refine ⟨wienerCore R C wop.k K image, ?_, ?_⟩
    · unfold WienerFilterOperator.apply
      rw [hK]
      rfl
    · intro i j
      exact normalizeToUint8_mem R C (wienerRestoredReal R C wop.k K image)
        (gridMean R C image) i j

theorem apply_shape_range_witness :
    0 ≤ InverseFilterOperator.apply 1 1 ⟨0, 50, 1 / 1000000⟩ (fun _ _ => 0) 0 0 ∧
    InverseFilterOperator.apply 1 1 ⟨0, 50, 1 / 1000000⟩ (fun _ _ => 0) 0 0 ≤ 255 :=
  (apply_shape_range 1 1 ⟨0, 50, 1 / 1000000⟩ ⟨0, 100, none⟩ (fun _ _ => 0)
    (le_refl 0) (by norm_num : (0 : ℝ) < 50) (by norm_num : (0 : ℝ) < 1 / 1000000)
    (le_refl 0) (by norm_num : (0 : ℝ) ≤ 100)
    (fun s h => by simp at h)).1 0 0

/-! ## Claim C10: bounded gain of the regularized inverse filter -/

/-- C10: for valid parameters, at every frequency sample the degradation
function lies in `(0, 1]`, the regularized inverse response
`H / (|H|² + 0.01)` lies in `(0, 5]`, the Gaussian low-pass lies in
`(0, 1]`, the combined filter `R·L + (1 - L)` lies in `(0, 5]`, and thus
no frequency coefficient is amplified by more than a factor of 5. -/
theorem inverse_filter_bounded_gain (op : InverseFilterOperator) (R C : ℕ)
    (i : Fin R) (j : Fin C)
    (hk : 0 ≤ op.k) (hc : 0 < op.cutoff_radius) (he : 0 < op.epsilon) :
    (0 < Hgrid op.k op.epsilon R C i j ∧ Hgrid op.k op.epsilon R C i j ≤ 1) ∧
    (0 < regularizedInverse (Hgrid op.k op.epsilon R C i j) ∧
      regularizedInverse (Hgrid op.k op.epsilon R C i j) ≤ 5) ∧
    (0 < lowpassGrid op.cutoff_radius R C i j ∧
      lowpassGrid op.cutoff_radius R C i j ≤ 1) ∧
    (0 < combinedFilter op R C i j ∧ combinedFilter op R C i j ≤ 5) ∧
    ∀ z : ℂ, Complex.abs (z * ((combinedFilter op R C i j : ℝ) : ℂ)) ≤
      5 * Complex.abs z := by
  have hH1 : 0 < Hgrid op.k op.epsilon R C i j :=
    degradationFun_pos op.k op.epsilon (coordU C j.1) (coordV R i.1)
  have hH2 : Hgrid op.k op.epsilon R C i j ≤ 1 :=
    degradationFun_le_one op.k op.epsilon (coordU C j.1) (coordV R i.1) hk
  have hreg := regularizedInverse_pos_le (Hgrid op.k op.epsilon R C i j) hH1
  have hlow : 0 < lowpassGrid op.cutoff_radius R C i j ∧
      lowpassGrid op.cutoff_radius R C i j ≤ 1 :=
    lowpassFun_pos_le op.cutoff_radius (coordU C j.1) (coordV R i.1) hc
  have hcomb : 0 < combinedFilter op R C i j ∧ combinedFilter op R C i j ≤ 5 :=
    combined_pos_le (regularizedInverse (Hgrid op.k op.epsilon R C i j))
      (lowpassGrid op.cutoff_radius R C i j) hreg.1 hreg.2 hlow.1 hlow.2
  refine ⟨⟨hH1, hH2⟩, hreg, hlow, hcomb, ?_⟩
  intro z
  rw [map_mul Complex.abs, Complex.abs_ofReal, abs_of_pos hcomb.1, mul_comm 5]
  exact mul_le_mul_of_nonneg_left hcomb.2 (Complex.abs.nonneg z)

theorem inverse_filter_bounded_gain_witness :
    0 < combinedFilter ⟨0, 50, 1 / 1000000⟩ 1 1 0 0 ∧
    combinedFilter ⟨0, 50, 1 / 1000000⟩ 1 1 0 0 ≤ 5 :=
  (inverse_filter_bounded_gain ⟨0, 50, 1 / 1000000⟩ 1 1 0 0
    (le_refl 0) (by norm_num : (0 : ℝ) < 50)
    (by norm_num : (0 : ℝ) < 1 / 1000000)).2.2.2.1

/-! ## Claim C9: the signal variance is never validated at construction -/

/-- C9: `WienerFilterOperator` construction succeeds for every supplied
signal variance (including 0 and negative values) as long as `k ≥ 0` and
`noise_variance ≥ 0`, storing it unchanged; a supplied signal variance of
exactly 0 only fails later, inside `apply`, when the NSR division
raises `ZeroDivisionError`. -/
theorem wiener_signal_variance_unvalidated :
    (∀ (k nv : ℝ) (sv : Option ℝ), 0 ≤ k → 0 ≤ nv →
      WienerFilterOperator.init k nv sv = .ok ⟨k, nv, sv⟩) ∧
    ∀ (R C : ℕ) [NeZero R] [NeZero C]
      (op : WienerFilterOperator) (image : Fin R → Fin C → ℝ),
      op.signal_variance = some 0 →
      op.apply R C image = .error "ZeroDivisionError: float division by zero" := by
  refine ⟨fun k nv sv hk hn => initWiener_ok k nv sv hk hn, ?_⟩
  intro R C _ _ op image hs
  unfold WienerFilterOperator.apply
  have herr : estimateNsr R C op image =
      .error "ZeroDivisionError: float division by zero" := by
    simp [estimateNsr, hs]
  rw [herr]
  rfl

theorem wiener_signal_variance_unvalidated_witness :
    WienerFilterOperator.apply 1 1 ⟨0, 100, some 0⟩ (fun _ _ => 0) =
      .error "ZeroDivisionError: float division by zero" :=
  wiener_signal_variance_unvalidated.2 1 1 ⟨0, 100, some 0⟩ (fun _ _ => 0) rfl

/-! ## Claim C6: flat-field fallback of the output normalizer -/

/-- C6: for every input image, when the 99th percentile of the filtered
real-valued spatial result equals the 1st percentile, each operator does
not raise but returns the constant image at the degraded input's mean
intensity (rounded and clipped to 8 bits); otherwise the result is
linearly rescaled so the 1st percentile maps to 0 and the 99th to 255,
clipped to `[0, 255]` and rounded.  The Wiener statement is phrased over
`wienerCore`, the `apply` body for an arbitrary NSR value `K`. -/
theorem flat_field_fallback (R C : ℕ) [NeZero R] [NeZero C]
    (op : InverseFilterOperator) (k K : ℝ) (image : Fin R → Fin C → ℝ) :
    (percentile (flattenGrid R C (invRestoredReal R C op image)) 99 =
        percentile (flattenGrid R C (invRestoredReal R C op image)) 1 →
      op.apply R C image = fun _ _ => toUint8 (gridMean R C image)) ∧
    (percentile (flattenGrid R C (invRestoredReal R C op image)) 99 ≠
        percentile (flattenGrid R C (invRestoredReal R C op image)) 1 →
      ∀ i j, op.apply R C image i j =
        toUint8 (clip255 ((invRestoredReal R C op image i j -
            percentile (flattenGrid R C (invRestoredReal R C op image)) 1) /
          (percentile (flattenGrid R C (invRestoredReal R C op image)) 99 -
            percentile (flattenGrid R C (invRestoredReal R C op image)) 1) * 255))) ∧
    (percentile (flattenGrid R C (wienerRestoredReal R C k K image)) 99 =
        percentile (flattenGrid R C (wienerRestoredReal R C k K image)) 1 →
      wienerCore R C k K image = fun _ _ => toUint8 (gridMean R C image)) ∧
    (percentile (flattenGrid R C (wienerRestoredReal R C k K image)) 99 ≠
        percentile (flattenGrid R C (wienerRestoredReal R C k K image)) 1 →
      ∀ i j, wienerCore R C k K image i j =
        toUint8 (clip255 ((wienerRestoredReal R C k K image i j -
            percentile (flattenGrid R C (wienerRestoredReal R C k K image)) 1) /
          (percentile (flattenGrid R C (wienerRestoredReal R C k K image)) 99 -
            percentile (flattenGrid R C (wienerRestoredReal R C k K image)) 1) * 255))) := by
  have hR : 0 < R := Nat.pos_of_ne_zero (NeZero.ne R)
  have hC : 0 < C := Nat.pos_of_ne_zero (NeZero.ne C)
  refine ⟨?_, ?_, ?_, ?_⟩
  · intro h
    exact normalizeToUint8_flat R C (invRestoredReal R C op image) (gridMean R C image) h
  · intro h
    exact normalizeToUint8_rescale R C hR hC (invRestoredReal R C op image)
      (gridMean R C image) h
  · intro h
    exact normalizeToUint8_flat R C (wienerRestoredReal R C k K image)
      (gridMean R C image) h
  · intro h
    exact normalizeToUint8_rescale R C hR hC (wienerRestoredReal R C k K image)
      (gridMean R C image) h

theorem flat_field_fallback_witness :
    InverseFilterOperator.apply 1 1 ⟨0, 50, 1 / 1000000⟩ (fun _ _ => 0) =
      fun _ _ => toUint8 (gridMean 1 1 fun _ _ => 0) :=
  (flat_field_fallback 1 1 ⟨0, 50, 1 / 1000000⟩ 0 0 (fun _ _ => 0)).1
    (percentile_of_length_one _ (by simp [flattenGrid_length]) 99 1)

/-! ## Claim C3: PSNR failure modes -/

/-- C3 counterexample: a 1×2 all-zero array and a 2×2 all-255 array have
different shapes, yet `compute_psnr` raises nothing: the subtraction
broadcasts under numpy's rules and the call returns the value 0.0 dB. -/
theorem psnr_shape_counterexample :
    ((1, 2) : ℕ × ℕ) ≠ (2, 2) ∧
    computePsnr ⟨1, 2, fun _ _ => 0⟩ ⟨2, 2, fun _ _ => 255⟩ = .ok ((0 : ℝ) : EReal) := by
  constructor
  · simp
  · have hcompat : broadcastCompatible ⟨1, 2, fun _ _ => 0⟩ ⟨2, 2, fun _ _ => 255⟩ :=
      ⟨Or.inr (Or.inl rfl), Or.inl rfl⟩
    have hval : ∀ i j : ℕ,
        bVal ⟨1, 2, fun _ _ => (0 : ℝ)⟩ i j = 0 ∧
        bVal ⟨2, 2, fun _ _ => (255 : ℝ)⟩ i j = 255 := by
      intro i j
      have h1 : i % 2 < 2 := Nat.mod_lt _ (by norm_num)
      have h2 : j % 2 < 2 := Nat.mod_lt _ (by norm_num)
      constructor <;> · simp [bVal, atIdx, h1, h2]
    simp only [computePsnr, hcompat, if_true]
    have hbrR : brDim 1 2 = 2 := rfl
    have hbrC : brDim 2 2 = 2 := rfl
    rw [hbrR, hbrC]
    have hmse : (∑ i : Fin 2, ∑ j : Fin 2,
        (bVal ⟨1, 2, fun _ _ => (0 : ℝ)⟩ i.1 j.1 -
          bVal ⟨2, 2, fun _ _ => (255 : ℝ)⟩ i.1 j.1) ^ 2) / ((2 : ℕ) * (2 : ℕ)) =
        65025 := by
      simp only [fun i j : ℕ => (hval i j).1, fun i j : ℕ => (hval i j).2]
      norm_num [Fin.sum_univ_two]
    rw [hmse]
    rw [if_neg (by norm_num)]
    have hlog : Real.logb 10 ((255 : ℝ) ^ 2 / 65025) = 0 := by
      norm_num
    rw [hlog]
    norm_num

/-- C3 amended: `compute_psnr` is a pure function that raises exactly
when the two shapes are not numpy-broadcastable; differing but
broadcastable shapes (an axis of extent 1) silently return a value. -/
theorem psnr_error_iff (a b : NDImage) :
    (∃ e, computePsnr a b = .error e) ↔ ¬ broadcastCompatible a b := by
  unfold computePsnr
  by_cases h : broadcastCompatible a b
  · rw [if_pos h]
    constructor
    · rintro ⟨e, he⟩
      dsimp only at he
      split_ifs at he
    · intro hn
      exact absurd h hn
  · rw [if_neg h]
    exact ⟨fun _ => h, fun _ => ⟨_, rfl⟩⟩

end HW3
